import Mathlib

set_option maxRecDepth 100000

/-!
Verification of the reed-solomon-wasm erasure-coding library.

The repository's `src/lib.rs` is a thin wasm-bindgen wrapper around an
external Reed-Solomon codec.  The wrapper (`ShardsCollection`,
`RsShardsCollection`, `rs_encode`, `rs_decode`, `encode`, `decode`) is
embedded below directly from the source.  The codec itself (Galois-field
arithmetic over GF(2^8), the systematic Cauchy generator matrix, the
encoder and the decoder) is not part of `src/`; those definitions are
modelled from the specification and are marked `Modelled from the spec:`
in their doc comments.
-/

/-! ## GF(2^8) arithmetic on `Nat`

Modelled from the spec: "a Galois-field arithmetic layer over GF(2^8)"
with "add(a,b) = a xor b" and multiplication determined by "a fixed
primitive polynomial"; we fix the primitive polynomial
x^8 + x^4 + x^3 + x^2 + 1 (0x11d). -/

/-- Multiplication by x in GF(2^8): shift left and reduce by 0x11d. -/
def xtime (b : Nat) : Nat :=
  if b < 128 then 2 * b else (2 * b) ^^^ 285

/-- Shift-and-add (Russian peasant) product accumulator: multiplies the
low `n` bits of `a` by `b` in GF(2^8). -/
def gfMulAux : Nat → Nat → Nat → Nat
  | 0, _, _ => 0
  | n + 1, a, b => (if a % 2 = 1 then b else 0) ^^^ gfMulAux n (a / 2) (xtime b)

/-- Product in GF(2^8) of two bytes. -/
def gfMulNat (a b : Nat) : Nat := gfMulAux 8 a b

/-- Inverse table for GF(2^8) under the primitive polynomial 0x11d, as the
spec prescribes table-driven division ("discrete-log/antilog tables built
from a fixed primitive polynomial"); entry 0 is 0. -/
def gfInvTable : List Nat :=
  [0, 1, 142, 244, 71, 167, 122, 186, 173, 157, 221, 152, 61, 170, 93, 150,
   216, 114, 192, 88, 224, 62, 76, 102, 144, 222, 85, 128, 160, 131, 75, 42,
   108, 237, 57, 81, 96, 86, 44, 138, 112, 208, 31, 74, 38, 139, 51, 110,
   72, 137, 111, 46, 164, 195, 64, 94, 80, 34, 207, 169, 171, 12, 21, 225,
   54, 95, 248, 213, 146, 78, 166, 4, 48, 136, 43, 30, 22, 103, 69, 147,
   56, 35, 104, 140, 129, 26, 37, 97, 19, 193, 203, 99, 151, 14, 55, 65,
   36, 87, 202, 91, 185, 196, 23, 77, 82, 141, 239, 179, 32, 236, 47, 50,
   40, 209, 17, 217, 233, 251, 218, 121, 219, 119, 6, 187, 132, 205, 254, 252,
   27, 84, 161, 29, 124, 204, 228, 176, 73, 49, 39, 45, 83, 105, 2, 245,
   24, 223, 68, 79, 155, 188, 15, 92, 11, 220, 189, 148, 172, 9, 199, 162,
   28, 130, 159, 198, 52, 194, 70, 5, 206, 59, 13, 60, 156, 8, 190, 183,
   135, 229, 238, 107, 235, 242, 191, 175, 197, 100, 7, 123, 149, 154, 174, 182,
   18, 89, 165, 53, 101, 184, 163, 158, 210, 247, 98, 90, 133, 125, 168, 58,
   41, 113, 200, 246, 249, 67, 215, 214, 16, 115, 118, 120, 153, 10, 25, 145,
   20, 63, 230, 240, 134, 177, 226, 241, 250, 116, 243, 180, 109, 33, 178, 106,
   227, 231, 181, 234, 3, 143, 211, 201, 66, 212, 232, 117, 127, 255, 126, 253]

/-- Multiplicative inverse in GF(2^8); 0 maps to 0. -/
def gfInvNat (a : Nat) : Nat := gfInvTable.getD a 0

/-! ### Closure and homomorphism lemmas for `xtime` -/

theorem xor_lt_256 {x y : Nat} (hx : x < 256) (hy : y < 256) : x ^^^ y < 256 :=
  Nat.xor_lt_two_pow (show x < 2 ^ 8 from hx) (show y < 2 ^ 8 from hy)

theorem xtime_lt_aux : ∀ b : Fin 256, xtime b.val < 256 := by decide

theorem xtime_lt {b : Nat} (hb : b < 256) : xtime b < 256 := xtime_lt_aux ⟨b, hb⟩

theorem two_mul_xor (x y : Nat) : 2 * (x ^^^ y) = 2 * x ^^^ 2 * y := by
  apply Nat.eq_of_testBit_eq
  intro i
  rw [Nat.mul_comm 2, Nat.mul_comm 2 x, Nat.mul_comm 2 y]
  rw [show (x ^^^ y) * 2 = (x ^^^ y) <<< 1 by rw [Nat.shiftLeft_eq]]
  rw [show x * 2 = x <<< 1 by rw [Nat.shiftLeft_eq]]
  rw [show y * 2 = y <<< 1 by rw [Nat.shiftLeft_eq]]
  rw [Nat.testBit_xor, Nat.testBit_shiftLeft, Nat.testBit_shiftLeft, Nat.testBit_shiftLeft,
    Nat.testBit_xor]
  by_cases hi : 1 ≤ i <;> simp [hi]

theorem xor_swap_pairs (w x y z : Nat) :
    (w ^^^ x) ^^^ (y ^^^ z) = (w ^^^ y) ^^^ (x ^^^ z) := by
  rw [Nat.xor_assoc, Nat.xor_assoc]
  congr 1
  rw [← Nat.xor_assoc, ← Nat.xor_assoc, Nat.xor_comm x y]

theorem testBit7_false_iff {b : Nat} (hb : b < 256) : b.testBit 7 = false ↔ b < 128 := by
  rw [Nat.testBit_to_div_mod]
  constructor
  · intro h
    simp only [decide_eq_false_iff_not] at h
    omega
  · intro h
    simp only [decide_eq_false_iff_not]
    omega

theorem testBit7_true_iff {b : Nat} (hb : b < 256) : b.testBit 7 = true ↔ 128 ≤ b := by
  rw [Nat.testBit_to_div_mod]
  constructor
  · intro h
    simp only [decide_eq_true_eq] at h
    omega
  · intro h
    simp only [decide_eq_true_eq]
    omega

theorem xtime_xor {b c : Nat} (hb : b < 256) (hc : c < 256) :
    xtime (b ^^^ c) = xtime b ^^^ xtime c := by
  have hbc : b ^^^ c < 256 := xor_lt_256 hb hc
  have h7 : (b ^^^ c).testBit 7 = ((b.testBit 7).xor (c.testBit 7)) := Nat.testBit_xor b c 7
  rcases Nat.lt_or_ge b 128 with hb7 | hb7 <;> rcases Nat.lt_or_ge c 128 with hc7 | hc7
  · have h1 : b ^^^ c < 128 :=
      Nat.xor_lt_two_pow (show b < 2 ^ 7 from hb7) (show c < 2 ^ 7 from hc7)
    rw [xtime, xtime, xtime, if_pos h1, if_pos hb7, if_pos hc7]
    exact two_mul_xor b c
  · have hbf : b.testBit 7 = false := (testBit7_false_iff hb).mpr hb7
    have hcf : c.testBit 7 = true := (testBit7_true_iff hc).mpr hc7
    have h1 : ¬ b ^^^ c < 128 := by
      have ht : (b ^^^ c).testBit 7 = true := by rw [h7, hbf, hcf]; rfl
      have := (testBit7_true_iff hbc).mp ht
      omega
    rw [xtime, xtime, xtime, if_neg h1, if_pos hb7, if_neg (show ¬ c < 128 by omega)]
    rw [two_mul_xor, Nat.xor_assoc]
  · have hbf : b.testBit 7 = true := (testBit7_true_iff hb).mpr hb7
    have hcf : c.testBit 7 = false := (testBit7_false_iff hc).mpr hc7
    have h1 : ¬ b ^^^ c < 128 := by
      have ht : (b ^^^ c).testBit 7 = true := by rw [h7, hbf, hcf]; rfl
      have := (testBit7_true_iff hbc).mp ht
      omega
    rw [xtime, xtime, xtime, if_neg h1, if_neg (show ¬ b < 128 by omega), if_pos hc7]
    rw [two_mul_xor, Nat.xor_assoc, Nat.xor_comm (2 * c) 285, ← Nat.xor_assoc]
  · have hbf : b.testBit 7 = true := (testBit7_true_iff hb).mpr hb7
    have hcf : c.testBit 7 = true := (testBit7_true_iff hc).mpr hc7
    have h1 : b ^^^ c < 128 := by
      have ht : (b ^^^ c).testBit 7 = false := by rw [h7, hbf, hcf]; rfl
      exact (testBit7_false_iff hbc).mp ht
    rw [xtime, xtime, xtime, if_pos h1, if_neg (show ¬ b < 128 by omega),
      if_neg (show ¬ c < 128 by omega)]
    rw [two_mul_xor, xor_swap_pairs, Nat.xor_self, Nat.xor_zero]

/-! ### Ring laws for `gfMulNat` -/

theorem gfMulAux_lt {n : Nat} : ∀ {a b : Nat}, b < 256 → gfMulAux n a b < 256 := by
  induction n with
  | zero => intro a b _; simp [gfMulAux]
  | succ n ih =>
    intro a b hb
    rw [gfMulAux]
    apply xor_lt_256 _ (ih (xtime_lt hb))
    split <;> omega

theorem gfMulAux_zero_left {n : Nat} : ∀ {b : Nat}, gfMulAux n 0 b = 0 := by
  induction n with
  | zero => intro b; rfl
  | succ n ih => intro b; rw [gfMulAux]; simp [ih]

theorem gfMulAux_zero_right {n : Nat} : ∀ {a : Nat}, gfMulAux n a 0 = 0 := by
  induction n with
  | zero => intro a; rfl
  | succ n ih =>
    intro a
    rw [gfMulAux]
    have hx : xtime 0 = 0 := rfl
    rw [hx, ih]
    split <;> rfl

theorem xor_div_two (a b : Nat) : (a ^^^ b) / 2 = a / 2 ^^^ b / 2 := by
  apply Nat.eq_of_testBit_eq
  intro i
  rw [Nat.testBit_div_two, Nat.testBit_xor, Nat.testBit_xor, Nat.testBit_div_two,
    Nat.testBit_div_two]

theorem xor_mod_two (a b : Nat) : (a ^^^ b) % 2 = (a % 2) ^^^ (b % 2) := by
  have h0 := Nat.testBit_xor a b 0
  simp only [Nat.testBit_zero] at h0
  have ha := Nat.mod_two_eq_zero_or_one a
  have hb := Nat.mod_two_eq_zero_or_one b
  rcases ha with ha | ha <;> rcases hb with hb | hb <;>
    rw [ha, hb] at h0 ⊢ <;> simp_all

theorem gfMulAux_xor_left {n : Nat} :
    ∀ {a a' b : Nat}, gfMulAux n (a ^^^ a') b = gfMulAux n a b ^^^ gfMulAux n a' b := by
  induction n with
  | zero => intro a a' b; simp [gfMulAux]
  | succ n ih =>
    intro a a' b
    rw [gfMulAux, gfMulAux, gfMulAux, xor_div_two, ih, xor_swap_pairs]
    congr 1
    have h := xor_mod_two a a'
    rcases Nat.mod_two_eq_zero_or_one a with ha | ha <;>
      rcases Nat.mod_two_eq_zero_or_one a' with ha' | ha' <;>
        rw [ha, ha'] at h <;> simp [h, ha, ha']

theorem gfMulAux_xor_right {n : Nat} :
    ∀ {a b c : Nat}, b < 256 → c < 256 →
      gfMulAux n a (b ^^^ c) = gfMulAux n a b ^^^ gfMulAux n a c := by
  induction n with
  | zero => intro a b c _ _; simp [gfMulAux]
  | succ n ih =>
    intro a b c hb hc
    rw [gfMulAux, gfMulAux, gfMulAux, xtime_xor hb hc,
      ih (xtime_lt hb) (xtime_lt hc), xor_swap_pairs]
    congr 1
    split <;> simp

theorem gfMulAux_xtime {n : Nat} :
    ∀ {a b : Nat}, b < 256 → xtime (gfMulAux n a b) = gfMulAux n a (xtime b) := by
  induction n with
  | zero => intro a b _; rfl
  | succ n ih =>
    intro a b hb
    rw [gfMulAux, gfMulAux]
    have hX : (if a % 2 = 1 then b else 0) < 256 := by split <;> omega
    rw [xtime_xor hX (gfMulAux_lt (xtime_lt hb)), ih (xtime_lt hb)]
    congr 1
    split
    · rfl
    · rfl

theorem gfMulAux_fuel {n : Nat} :
    ∀ {m a b : Nat}, a < 2 ^ n → n ≤ m → gfMulAux n a b = gfMulAux m a b := by
  induction n with
  | zero =>
    intro m a b ha _
    have : a = 0 := by omega
    subst this
    rw [gfMulAux_zero_left]
    exact gfMulAux_zero_left.symm
  | succ n ih =>
    intro m a b ha hm
    rcases m with _ | m
    · omega
    rw [gfMulAux, gfMulAux]
    congr 1
    have h2 : a / 2 < 2 ^ n := by
      have : 2 ^ (n + 1) = 2 * 2 ^ n := by ring
      omega
    exact ih h2 (by omega)

theorem gfMulNat_one_left {b : Nat} : gfMulNat 1 b = b := by
  rw [gfMulNat, gfMulAux]
  norm_num
  rw [gfMulAux_zero_left]
  exact Nat.xor_zero b

theorem gfMulNat_one_right_aux : ∀ a : Fin 256, gfMulNat a.val 1 = a.val := by decide

theorem gfMulNat_one_right {a : Nat} (ha : a < 256) : gfMulNat a 1 = a :=
  gfMulNat_one_right_aux ⟨a, ha⟩

theorem gfMulNat_zero_left {b : Nat} : gfMulNat 0 b = 0 := gfMulAux_zero_left

theorem gfMulNat_zero_right {a : Nat} : gfMulNat a 0 = 0 := gfMulAux_zero_right

theorem gfMulNat_lt {a b : Nat} (hb : b < 256) : gfMulNat a b < 256 := gfMulAux_lt hb

theorem gfMulNat_xor_left {a a' b : Nat} :
    gfMulNat (a ^^^ a') b = gfMulNat a b ^^^ gfMulNat a' b := gfMulAux_xor_left

theorem gfMulNat_xor_right {a b c : Nat} (hb : b < 256) (hc : c < 256) :
    gfMulNat a (b ^^^ c) = gfMulNat a b ^^^ gfMulNat a c := gfMulAux_xor_right hb hc

theorem even_xor_one {e : Nat} (he : e % 2 = 0) : e ^^^ 1 = e + 1 := by
  apply Nat.eq_of_testBit_eq
  intro i
  rw [Nat.testBit_xor]
  cases i with
  | zero =>
    simp only [Nat.testBit_zero]
    have h1 : (e + 1) % 2 = 1 := by omega
    simp [he, h1]
  | succ i =>
    rw [Nat.testBit_succ, Nat.testBit_succ, Nat.testBit_succ]
    have h1 : (e + 1) / 2 = e / 2 := by omega
    have h2 : (1 : Nat) / 2 = 0 := rfl
    rw [h1, h2]
    simp [Nat.zero_testBit]

theorem gfMulNat_xtime {a b : Nat} (hb : b < 256) :
    xtime (gfMulNat a b) = gfMulNat a (xtime b) := gfMulAux_xtime hb

theorem gfMulNat_two_mul {d b : Nat} (hd : d < 128) :
    gfMulNat (2 * d) b = gfMulNat d (xtime b) := by
  rw [gfMulNat, gfMulAux]
  have h1 : (2 * d) % 2 = 0 := by omega
  have h2 : (2 * d) / 2 = d := by omega
  rw [h1, h2]
  norm_num
  rw [gfMulNat]
  exact gfMulAux_fuel (show d < 2 ^ 7 from hd) (show 7 ≤ 8 by omega)

theorem gfMulNat_comm : ∀ a : Nat, ∀ {b : Nat}, a < 256 → b < 256 →
    gfMulNat a b = gfMulNat b a := by
  intro a
  induction a using Nat.strong_induction_on with
  | _ a ih =>
    intro b ha hb
    rcases Nat.eq_zero_or_pos a with h0 | h0
    · subst h0
      rw [gfMulNat_zero_left, gfMulNat_zero_right]
    rcases Nat.mod_two_eq_zero_or_one a with hpar | hpar
    · -- a even
      obtain ⟨d, hd⟩ : ∃ d, a = 2 * d := ⟨a / 2, by omega⟩
      subst hd
      have hdlt : d < 128 := by omega
      rw [gfMulNat_two_mul hdlt, ← gfMulNat_xtime hb,
        ih d (by omega) (by omega) hb, gfMulNat_xtime (show d < 256 by omega)]
      rw [xtime, if_pos hdlt]
    · -- a odd
      obtain ⟨e, he⟩ : ∃ e, a = e + 1 := ⟨a - 1, by omega⟩
      subst he
      have hee : e % 2 = 0 := by omega
      rw [← even_xor_one hee, gfMulNat_xor_left,
        gfMulNat_xor_right (show e < 256 by omega) (show (1 : Nat) < 256 by omega),
        gfMulNat_one_left, gfMulNat_one_right hb,
        ih e (by omega) (by omega) hb]

theorem gfMulNat_assoc : ∀ a : Nat, ∀ {b c : Nat}, a < 256 → b < 256 → c < 256 →
    gfMulNat (gfMulNat a b) c = gfMulNat a (gfMulNat b c) := by
  intro a
  induction a using Nat.strong_induction_on with
  | _ a ih =>
    intro b c ha hb hc
    rcases Nat.eq_zero_or_pos a with h0 | h0
    · subst h0
      rw [gfMulNat_zero_left, gfMulNat_zero_left, gfMulNat_zero_left]
    rcases Nat.mod_two_eq_zero_or_one a with hpar | hpar
    · -- a even
      obtain ⟨d, hd⟩ : ∃ d, a = 2 * d := ⟨a / 2, by omega⟩
      subst hd
      have hdlt : d < 128 := by omega
      have hxb : xtime b < 256 := xtime_lt hb
      rw [gfMulNat_two_mul hdlt, ih d (by omega) (by omega) hxb hc,
        gfMulNat_comm (xtime b) hxb hc, ← gfMulNat_xtime hb,
        gfMulNat_comm c hc hb, ← gfMulNat_two_mul hdlt]
    · -- a odd
      obtain ⟨e, he⟩ : ∃ e, a = e + 1 := ⟨a - 1, by omega⟩
      subst he
      have hee : e % 2 = 0 := by omega
      rw [← even_xor_one hee, gfMulNat_xor_left, gfMulNat_one_left,
        gfMulNat_xor_left, ih e (by omega) (by omega) hb hc,
        gfMulNat_xor_left, gfMulNat_one_left]

/-! ### The field GF256 -/

theorem gfInvNat_lt_aux : ∀ a : Fin 256, gfInvNat a.val < 256 := by decide

theorem gfInvNat_mul_aux : ∀ a : Fin 256, a.val ≠ 0 → gfMulNat a.val (gfInvNat a.val) = 1 := by
  decide

/-- Modelled from the spec: elements of the Galois field GF(2^8) are bytes. -/
structure GF256 where
  val : Nat
  lt : val < 256
deriving DecidableEq

theorem GF256.ext {a b : GF256} (h : a.val = b.val) : a = b := by
  cases a
  cases b
  simp only at h
  subst h
  rfl

instance : Zero GF256 := ⟨⟨0, by omega⟩⟩

instance : One GF256 := ⟨⟨1, by omega⟩⟩

instance : Add GF256 := ⟨fun a b => ⟨a.val ^^^ b.val, xor_lt_256 a.lt b.lt⟩⟩

instance : Neg GF256 := ⟨fun a => a⟩

instance : Mul GF256 := ⟨fun a b => ⟨gfMulNat a.val b.val, gfMulNat_lt b.lt⟩⟩

instance : Inv GF256 := ⟨fun a => ⟨gfInvNat a.val, gfInvNat_lt_aux ⟨a.val, a.lt⟩⟩⟩

theorem GF256.val_add (a b : GF256) : (a + b).val = a.val ^^^ b.val := rfl

theorem GF256.val_mul (a b : GF256) : (a * b).val = gfMulNat a.val b.val := rfl

theorem GF256.val_zero : (0 : GF256).val = 0 := rfl

theorem GF256.val_one : (1 : GF256).val = 1 := rfl

theorem GF256.val_ne_zero {a : GF256} (h : a ≠ 0) : a.val ≠ 0 := by
  intro hv
  exact h (GF256.ext hv)

instance : Field GF256 :=
  Field.ofMinimalAxioms GF256
    (fun a b c => GF256.ext (Nat.xor_assoc a.val b.val c.val))
    (fun a => GF256.ext (Nat.zero_xor a.val))
    (fun a => GF256.ext (Nat.xor_self a.val))
    (fun a b c => GF256.ext (gfMulNat_assoc a.val a.lt b.lt c.lt))
    (fun a b => GF256.ext (gfMulNat_comm a.val a.lt b.lt))
    (fun a => GF256.ext gfMulNat_one_left)
    (fun a ha => GF256.ext (gfInvNat_mul_aux ⟨a.val, a.lt⟩ (GF256.val_ne_zero ha)))
    (GF256.ext rfl)
    (fun a b c => GF256.ext (gfMulNat_xor_right b.lt c.lt))
    ⟨0, 1, by decide⟩

theorem GF256.neg_eq (a : GF256) : -a = a := rfl

theorem GF256.add_self (a : GF256) : a + a = 0 := GF256.ext (Nat.xor_self a.val)

theorem GF256.add_eq_zero_iff {a b : GF256} : a + b = 0 ↔ a = b := by
  constructor
  · intro h
    exact GF256.ext (Nat.xor_eq_zero.mp (congrArg GF256.val h))
  · intro h
    subst h
    exact GF256.add_self a

/-- Byte `n % 256` as a field element. -/
def GF256.ofNat (n : Nat) : GF256 := ⟨n % 256, Nat.mod_lt n (by omega)⟩

theorem GF256.ofNat_inj {x y : Nat} (hx : x < 256) (hy : y < 256)
    (h : GF256.ofNat x = GF256.ofNat y) : x = y := by
  have hv := congrArg GF256.val h
  simp only [GF256.ofNat] at hv
  rwa [Nat.mod_eq_of_lt hx, Nat.mod_eq_of_lt hy] at hv

/-! ## The Reed-Solomon codec core

Modelled from the spec: the encoder, decoder and their validation rules
("InvalidParameters if k == 0, or k + m exceeds the field's element range
(256 for GF(2^8))", "ShardCountMismatch", "ShardLengthMismatch",
"TooFewShards", "DuplicateIndex", "SingularMatrix").  The codec itself is
supplied by an external crate and is not part of `src/`. -/

/-- Error taxonomy of the codec, from the spec's section 7; `InvalidIndex`
additionally models the library's rejection of a shard index outside
`[0, k+m)` ("a global index in `[0, original_count+recovery_count)`"). -/
inductive RsError where
  | InvalidParameters
  | ShardCountMismatch
  | ShardLengthMismatch
  | TooFewShards
  | DuplicateIndex
  | SingularMatrix
  | InvalidIndex
deriving DecidableEq

/-- Modelled from the spec: entry `(g, c)` of the systematic `(k+m) × k`
generator matrix — identity in the first `k` rows, the Cauchy entry
`1 / (x_j xor y_c)` in row `k + j`, with `y_c` the byte `c` and `x_j` the
byte `k + j` (two disjoint sequences of field elements). -/
def genEntry (k g c : Nat) : GF256 :=
  if g < k then (if g = c then 1 else 0)
  else (GF256.ofNat g + GF256.ofNat c)⁻¹

/-- Sum of `f 0, ..., f (n-1)` in GF(2^8). -/
def gfSumRange (n : Nat) (f : Nat → GF256) : GF256 :=
  (List.range n).foldr (fun i acc => f i + acc) 0

/-- Modelled from the spec: the encoder.  Validates the parameters and the
shards, then computes recovery row `j`, byte `b`, as
"XOR over i in [0,k) of GF256.mul(matrix[k+j][i], original[i][b])". -/
def coreEncode (k m L : Nat) (shards : List (List GF256)) :
    Except RsError (List (List GF256)) :=
  if k = 0 ∨ 256 < k + m then .error .InvalidParameters
  else if shards.length ≠ k then .error .ShardCountMismatch
  else if ∃ s ∈ shards, s.length ≠ L then .error .ShardLengthMismatch
  else .ok ((List.range m).map (fun j => (List.range L).map (fun b =>
    gfSumRange k (fun i => genEntry k (k + j) i * ((shards.getD i []).getD b 0)))))

/-- Insert a tagged shard into a list sorted by ascending index. -/
def insertByIdx (p : Nat × List GF256) :
    List (Nat × List GF256) → List (Nat × List GF256)
  | [] => [p]
  | q :: t => if p.1 ≤ q.1 then p :: q :: t else q :: insertByIdx p t

/-- Insertion sort of tagged shards by ascending index ("ties are broken by
ascending index for determinism"). -/
def sortByIdx : List (Nat × List GF256) → List (Nat × List GF256)
  | [] => []
  | p :: t => insertByIdx p (sortByIdx t)

/-- Modelled from the spec: the decoder "selects exactly `k` present shards
(all of `have_original` plus enough of `have_recovery` to reach `k`)"; all
original indices precede all recovery indices, so this is the first `k` of
the index-sorted present shards. -/
def decodeSel (k : Nat) (present : List (Nat × List GF256)) :
    List (Nat × List GF256) :=
  (sortByIdx present).take k

/-- Modelled from the spec: "the `k × k` submatrix `S` of the generator
matrix using the rows corresponding to the selected global indices". -/
def decodeMatrix (k : Nat) (sel : List (Nat × List GF256)) :
    Matrix (Fin k) (Fin k) GF256 :=
  Matrix.of fun r c => genEntry k (sel.getD r.val (0, [])).1 c.val

/-- Modelled from the spec: the inverse of `S` over GF256 (computed here via
the adjugate; the spec's Gauss-Jordan elimination computes the same
inverse). -/
def decodeInv (k : Nat) (sel : List (Nat × List GF256)) :
    Matrix (Fin k) (Fin k) GF256 :=
  ((decodeMatrix k sel).det)⁻¹ • (decodeMatrix k sel).adjugate

/-- Entry `(i, r)` of the inverse of `S`, with out-of-range indices zero. -/
def decodeInvEntry (k : Nat) (sel : List (Nat × List GF256)) (i r : Nat) : GF256 :=
  if hi : i < k then
    if hr : r < k then decodeInv k sel ⟨i, hi⟩ ⟨r, hr⟩ else 0
  else 0

/-- Modelled from the spec: the decoder.  Validates, returns the empty
result when every original shard is present, and otherwise reconstructs
"Recovered-original matrix = S⁻¹ · (selected shard data, as a k-row byte
matrix)", emitting each missing original index `idx < k` with row `idx` of
that product. -/
def coreDecode (k m L : Nat) (present : List (Nat × List GF256)) :
    Except RsError (List (Nat × List GF256)) :=
  if k = 0 ∨ 256 < k + m then .error .InvalidParameters
  else if ∃ p ∈ present, k + m ≤ p.1 then .error .InvalidIndex
  else if ∃ p ∈ present, p.2.length ≠ L then .error .ShardLengthMismatch
  else if ¬ (present.map Prod.fst).Nodup then .error .DuplicateIndex
  else if present.length < k then .error .TooFewShards
  else if ∀ i ∈ List.range k, i ∈ present.map Prod.fst then .ok []
  else if (decodeMatrix k (decodeSel k present)).det = 0 then .error .SingularMatrix
  else .ok ((List.range k).filterMap (fun i =>
    if i ∈ present.map Prod.fst then none
    else some (i, (List.range L).map (fun b =>
      gfSumRange k (fun r => decodeInvEntry k (decodeSel k present) i r *
        ((decodeSel k present).getD r (0, [])).2.getD b 0)))))

/-! ## The wrapper from `src/lib.rs` -/

/-- The `RsShardsCollection` struct of `src/lib.rs`: a packed buffer of
`length` shards of `shard_len` bytes each, with an optional index array. -/
structure RsShardsCollection where
  length : Nat
  shard_len : Nat
  data : List GF256
  indices : Option (List Nat)
deriving DecidableEq

/-- The `chunk_at` method: bytes `[index*shard_len, (index+1)*shard_len)`. -/
def RsShardsCollection.chunk_at (c : RsShardsCollection) (index : Nat) : List GF256 :=
  (c.data.drop (index * c.shard_len)).take c.shard_len

/-- The `chunk_index_at` method: the stored index when an index array is
present (in-bounds by construction), else the position cast to `u16`. -/
def RsShardsCollection.chunk_index_at (c : RsShardsCollection) (index : Nat) : Nat :=
  match c.indices with
  | some v => v.getD index 0
  | none => index % 65536

/-- The `rs_encode` function of `src/lib.rs`: feeds `shards.length` chunks
to an encoder built with `(shards.length, recovery_count, shard_bytes)` and
packs the recovery shards densely with `indices: None`. -/
def rs_encode (recovery_count shard_bytes : Nat) (shards : RsShardsCollection) :
    Except RsError RsShardsCollection :=
  match coreEncode shards.length recovery_count shard_bytes
      ((List.range shards.length).map shards.chunk_at) with
  | .error e => .error e
  | .ok recovery =>
    .ok { length := recovery_count, shard_len := shards.shard_len,
          data := recovery.flatten, indices := none }

/-- The `rs_decode` function of `src/lib.rs`: feeds every chunk with its
`chunk_index_at` tag to the decoder and packs the restored shards with
their indices; as in the source, the stored `length` is `data.len()`, the
total number of restored bytes. -/
def rs_decode (original_count recovery_count shard_bytes : Nat)
    (shards : RsShardsCollection) : Except RsError RsShardsCollection :=
  match coreDecode original_count recovery_count shard_bytes
      ((List.range shards.length).map
        (fun i => (shards.chunk_index_at i, shards.chunk_at i))) with
  | .error e => .error e
  | .ok restored =>
    .ok { length := (restored.map Prod.snd).flatten.length,
          shard_len := shards.shard_len,
          data := (restored.map Prod.snd).flatten,
          indices := some (restored.map Prod.fst) }

/-- The wasm-facing `ShardsCollection` struct of `src/lib.rs`. -/
structure ShardsCollection where
  length : Nat
  shard_len : Nat
  data : List GF256
  indices : Option (List Nat)
deriving DecidableEq

/-- The `ShardsCollection::new` constructor: `length = data.length() / shard_len`
(`none` models a panic: integer division by zero when `shard_len == 0`, or
"Mismatching indices and data length."). -/
def ShardsCollection.new (shard_len : Nat) (data : List GF256)
    (indices : Option (List Nat)) : Option ShardsCollection :=
  if shard_len = 0 then none
  else
    match indices with
    | some v =>
      if v.length ≠ data.length / shard_len then none
      else some ⟨data.length / shard_len, shard_len, data, some v⟩
    | none => some ⟨data.length / shard_len, shard_len, data, none⟩

/-- The `len` getter. -/
def ShardsCollection.len (c : ShardsCollection) : Nat := c.length

/-- The wasm `chunk_at` getter (`subarray` clamps at the buffer's end). -/
def ShardsCollection.chunk_at (c : ShardsCollection) (index : Nat) : List GF256 :=
  (c.data.drop (index * c.shard_len)).take c.shard_len

/-- The wasm `chunk_index_at` getter: stored index when the index array is
present (in-bounds by the constructor's check), else `index as u16`. -/
def ShardsCollection.chunk_index_at (c : ShardsCollection) (index : Nat) : Nat :=
  match c.indices with
  | some v => v.getD index 0
  | none => index % 65536

/-- The `From<ShardsCollection> for RsShardsCollection` conversion. -/
def ShardsCollection.toRs (c : ShardsCollection) : RsShardsCollection :=
  ⟨c.length, c.shard_len, c.data, c.indices⟩

/-- The `From<RsShardsCollection> for ShardsCollection` conversion. -/
def RsShardsCollection.toWasm (c : RsShardsCollection) : ShardsCollection :=
  ⟨c.length, c.shard_len, c.data, c.indices⟩

/-- Modelled from the spec: errors are surfaced "as opaque strings". -/
def errString : RsError → String
  | .InvalidParameters => "invalid parameters"
  | .ShardCountMismatch => "shard count mismatch"
  | .ShardLengthMismatch => "shard length mismatch"
  | .TooFewShards => "too few shards"
  | .DuplicateIndex => "duplicate index"
  | .SingularMatrix => "singular matrix"
  | .InvalidIndex => "invalid shard index"

/-- The wasm-facing `encode` entry point of `src/lib.rs`. -/
def encode (recovery_count shard_bytes : Nat) (shards : ShardsCollection) :
    Except String ShardsCollection :=
  match rs_encode recovery_count shard_bytes shards.toRs with
  | .error e => .error (errString e)
  | .ok c => .ok c.toWasm

/-- The wasm-facing `decode` entry point of `src/lib.rs`. -/
def decode (original_count recovery_count shard_bytes : Nat)
    (shards : ShardsCollection) : Except String ShardsCollection :=
  match rs_decode original_count recovery_count shard_bytes shards.toRs with
  | .error e => .error (errString e)
  | .ok c => .ok c.toWasm

/-- The recovery shards a successful encode returns (the `.ok` payload of
`coreEncode`). -/
def encShards (k m L : Nat) (orig : List (List GF256)) : List (List GF256) :=
  (List.range m).map (fun j => (List.range L).map (fun b =>
    gfSumRange k (fun i => genEntry k (k + j) i * ((orig.getD i []).getD b 0))))

/-- Shard with global index `g` of the systematic codeword of `orig`:
the original shard for `g < k`, recovery shard `g - k` otherwise. -/
def fullShard (k m L : Nat) (orig : List (List GF256)) (g : Nat) : List GF256 :=
  if g < k then orig.getD g [] else (encShards k m L orig).getD (g - k) []

/-! ## Helper lemmas about the wrapper -/

theorem map_fst_range_pair {α β : Type} (n : Nat) (f : Nat → α) (g : Nat → β) :
    ((List.range n).map (fun i => (f i, g i))).map Prod.fst = (List.range n).map f := by
  rw [List.map_map]
  rfl

/-- Whenever `coreDecode` succeeds, the present indices are distinct and at
least `k` shards were supplied. -/
theorem coreDecode_ok_facts {k m L : Nat} {present : List (Nat × List GF256)}
    {out : List (Nat × List GF256)} (h : coreDecode k m L present = Except.ok out) :
    (present.map Prod.fst).Nodup ∧ k ≤ present.length := by
  rw [coreDecode] at h
  split at h
  · cases h
  split at h
  · cases h
  split at h
  · cases h
  split at h
  · cases h
  split at h
  · cases h
  rename_i hnd hcnt
  exact ⟨not_not.mp hnd, by omega⟩

/-! ## The claims -/

/-- C9: for `shard_len > 0` the stored count of `ShardsCollection::new` is
`⌊data.length / shard_len⌋` (so trailing bytes beyond `count * shard_len`
are ignored, and with no index array the construction always succeeds
without error); for `shard_len = 0` the constructor panics (integer
division by zero), modelled as `none`, for every data argument. -/
theorem shards_collection_new_spec (shard_len : Nat) (data : List GF256)
    (indices : Option (List Nat)) :
    (shard_len = 0 → ShardsCollection.new shard_len data indices = none) ∧
    (0 < shard_len → ∀ c : ShardsCollection,
      ShardsCollection.new shard_len data indices = some c →
      c.length = data.length / shard_len) ∧
    (0 < shard_len →
      ShardsCollection.new shard_len data none =
        some ⟨data.length / shard_len, shard_len, data, none⟩) := by
  refine ⟨fun h0 => ?_, fun hpos c hc => ?_, fun hpos => ?_⟩
  · rw [ShardsCollection.new.eq_def, if_pos h0]
  · rw [ShardsCollection.new.eq_def, if_neg (by omega)] at hc
    rcases indices with _ | v
    · cases hc
      rfl
    · dsimp only at hc
      split at hc
      · cases hc
      · cases hc
        rfl
  · rw [ShardsCollection.new.eq_def, if_neg (by omega)]

theorem shards_collection_new_spec_witness :
    ShardsCollection.new 0 [GF256.ofNat 1] none = none ∧
    ShardsCollection.new 2 [GF256.ofNat 1, GF256.ofNat 2, GF256.ofNat 3] none =
      some ⟨1, 2, [GF256.ofNat 1, GF256.ofNat 2, GF256.ofNat 3], none⟩ ∧
    (⟨1, 2, [GF256.ofNat 1, GF256.ofNat 2, GF256.ofNat 3], none⟩ :
      ShardsCollection).length = 3 / 2 :=
  ⟨(shards_collection_new_spec 0 [GF256.ofNat 1] none).1 rfl,
   (shards_collection_new_spec 2 [GF256.ofNat 1, GF256.ofNat 2, GF256.ofNat 3]
      none).2.2 (by omega),
   (shards_collection_new_spec 2 [GF256.ofNat 1, GF256.ofNat 2, GF256.ofNat 3]
      none).2.1 (by omega) _ rfl⟩

/-- C10: on a `ShardsCollection` constructed without an explicit index
array, `chunk_index_at i` is `i` truncated to `u16`, i.e. `i % 2^16`, for
every position `i` below the stored count. -/
theorem chunk_index_at_without_indices (shard_len : Nat) (data : List GF256)
    (c : ShardsCollection) (hc : ShardsCollection.new shard_len data none = some c)
    (i : Nat) (hi : i < c.len) : c.chunk_index_at i = i % 65536 := by
  rw [ShardsCollection.new.eq_def] at hc
  split at hc
  · cases hc
  · cases hc
    rfl

theorem chunk_index_at_without_indices_witness :
    ShardsCollection.new 1 (List.replicate 70001 (GF256.ofNat 0)) none =
      some ⟨70001, 1, List.replicate 70001 (GF256.ofNat 0), none⟩ ∧
    (70000 : Nat) < (⟨70001, 1, List.replicate 70001 (GF256.ofNat 0), none⟩ :
      ShardsCollection).len ∧
    (⟨70001, 1, List.replicate 70001 (GF256.ofNat 0), none⟩ :
      ShardsCollection).chunk_index_at 70000 = 70000 % 65536 := by
  have h1 : ShardsCollection.new 1 (List.replicate 70001 (GF256.ofNat 0)) none =
      some ⟨70001, 1, List.replicate 70001 (GF256.ofNat 0), none⟩ := by
    rw [ShardsCollection.new.eq_def, if_neg (by omega), List.length_replicate]
  have h2 : (70000 : Nat) <
      (⟨70001, 1, List.replicate 70001 (GF256.ofNat 0), none⟩ :
        ShardsCollection).len := by
    show (70000 : Nat) < 70001
    omega
  exact ⟨h1, h2, chunk_index_at_without_indices 1 _ _ h1 70000 h2⟩

/-- C7: in this pure embedding both entry points are functions of their
arguments, so calls on identical inputs return identical results; the Rust
source likewise reads no mutable global state in `rs_encode`/`rs_decode`. -/
theorem encode_decode_deterministic (m L k' m' L' : Nat)
    (s t : RsShardsCollection) (hst : s = t)
    (u v : RsShardsCollection) (huv : u = v) :
    rs_encode m L s = rs_encode m L t ∧
    rs_decode k' m' L' u = rs_decode k' m' L' v := by
  subst hst
  subst huv
  exact ⟨rfl, rfl⟩

theorem encode_decode_deterministic_witness :
    rs_encode 1 1 ⟨2, 1, [GF256.ofNat 3, GF256.ofNat 5], none⟩ =
      rs_encode 1 1 ⟨2, 1, [GF256.ofNat 3, GF256.ofNat 5], none⟩ ∧
    rs_decode 2 1 1 ⟨2, 1, [GF256.ofNat 3, GF256.ofNat 5], some [0, 1]⟩ =
      rs_decode 2 1 1 ⟨2, 1, [GF256.ofNat 3, GF256.ofNat 5], some [0, 1]⟩ :=
  encode_decode_deterministic 1 1 2 1 1 _ _ rfl _ _ rfl

/-- C5: both `rs_encode` and `rs_decode` reject `k = 0` or `k + m > 256`
with `InvalidParameters` before doing anything else (for encode, `k` is the
count of the supplied collection). -/
theorem invalid_parameters_rejected (k m L : Nat) (h : k = 0 ∨ 256 < k + m) :
    (∀ shards : RsShardsCollection, shards.length = k →
      rs_encode m L shards = Except.error RsError.InvalidParameters) ∧
    (∀ shards : RsShardsCollection,
      rs_decode k m L shards = Except.error RsError.InvalidParameters) := by
  constructor
  · intro shards hs
    rw [rs_encode, coreEncode, if_pos (by omega)]
  · intro shards
    rw [rs_decode, coreDecode, if_pos h]

theorem invalid_parameters_rejected_witness :
    ((0 : Nat) = 0 ∨ 256 < 0 + 5) ∧
    rs_encode 5 1 ⟨0, 1, [], none⟩ = Except.error RsError.InvalidParameters ∧
    rs_decode 0 5 1 ⟨0, 1, [], none⟩ = Except.error RsError.InvalidParameters :=
  ⟨Or.inl rfl,
   (invalid_parameters_rejected 0 5 1 (Or.inl rfl)).1 ⟨0, 1, [], none⟩ rfl,
   (invalid_parameters_rejected 0 5 1 (Or.inl rfl)).2 ⟨0, 1, [], none⟩⟩

/-- C4: a decode call with fewer than `original_count` distinct global
indices returns an error rather than any shard data, and a repeated index
also yields an error. -/
theorem rs_decode_requires_enough_distinct (k m L : Nat)
    (shards : RsShardsCollection) :
    (((List.range shards.length).map shards.chunk_index_at).dedup.length < k →
      ∃ e, rs_decode k m L shards = Except.error e) ∧
    (¬ ((List.range shards.length).map shards.chunk_index_at).Nodup →
      ∃ e, rs_decode k m L shards = Except.error e) := by
  have key : ∀ out, rs_decode k m L shards = Except.ok out →
      ((List.range shards.length).map shards.chunk_index_at).Nodup ∧
      k ≤ ((List.range shards.length).map shards.chunk_index_at).dedup.length := by
    intro out hres
    rw [rs_decode] at hres
    split at hres
    · cases hres
    rename_i restored hcore
    obtain ⟨hnodup, hle⟩ := coreDecode_ok_facts hcore
    rw [map_fst_range_pair] at hnodup
    refine ⟨hnodup, ?_⟩
    rw [List.Nodup.dedup hnodup, List.length_map, List.length_range]
    rw [List.length_map, List.length_range] at hle
    exact hle
  constructor <;> intro h
  · cases hres : rs_decode k m L shards with
    | error e => exact ⟨e, rfl⟩
    | ok out => exact absurd (key out hres).2 (by omega)
  · cases hres : rs_decode k m L shards with
    | error e => exact ⟨e, rfl⟩
    | ok out => exact absurd (key out hres).1 h

theorem rs_decode_requires_enough_distinct_witness :
    (((List.range 1).map
        (RsShardsCollection.chunk_index_at ⟨1, 1, [GF256.ofNat 5], none⟩)).dedup.length < 2 ∧
      ∃ e, rs_decode 2 1 1 ⟨1, 1, [GF256.ofNat 5], none⟩ = Except.error e) ∧
    (¬ ((List.range 2).map
        (RsShardsCollection.chunk_index_at ⟨2, 1, [GF256.ofNat 5, GF256.ofNat 6],
          some [1, 1]⟩)).Nodup ∧
      ∃ e, rs_decode 2 1 1 ⟨2, 1, [GF256.ofNat 5, GF256.ofNat 6], some [1, 1]⟩ =
        Except.error e) :=
  ⟨⟨by decide,
    (rs_decode_requires_enough_distinct 2 1 1 ⟨1, 1, [GF256.ofNat 5], none⟩).1
      (by decide)⟩,
   ⟨by decide,
    (rs_decode_requires_enough_distinct 2 1 1
      ⟨2, 1, [GF256.ofNat 5, GF256.ofNat 6], some [1, 1]⟩).2 (by decide)⟩⟩

/-- C6: a decode call on a well-formed input that already contains every
original shard (indices `0..k-1` all present) succeeds with an empty
recovered set; the embedding is pure, so the input collection is never
altered. -/
theorem rs_decode_full_original_noop (k m L : Nat) (shards : RsShardsCollection)
    (hk : 0 < k) (hkm : k + m ≤ 256)
    (hidx : ∀ i, i < shards.length → shards.chunk_index_at i < k + m)
    (hlen : ∀ i, i < shards.length → (shards.chunk_at i).length = L)
    (hnodup : ((List.range shards.length).map shards.chunk_index_at).Nodup)
    (hfull : ∀ i, i < k → ∃ j, j < shards.length ∧ shards.chunk_index_at j = i) :
    rs_decode k m L shards = Except.ok ⟨0, shards.shard_len, [], some []⟩ := by
  have hcore : coreDecode k m L
      ((List.range shards.length).map
        (fun i => (shards.chunk_index_at i, shards.chunk_at i))) =
      Except.ok [] := by
    have hmem : ∀ p ∈ (List.range shards.length).map
        (fun i => (shards.chunk_index_at i, shards.chunk_at i)),
        p.1 < k + m ∧ p.2.length = L := by
      intro p hp
      obtain ⟨i, hi, rfl⟩ := List.mem_map.mp hp
      have hi' : i < shards.length := List.mem_range.mp hi
      exact ⟨hidx i hi', hlen i hi'⟩
    have hfull' : ∀ i ∈ List.range k,
        i ∈ ((List.range shards.length).map
          (fun i => (shards.chunk_index_at i, shards.chunk_at i))).map Prod.fst := by
      intro i hi
      obtain ⟨j, hj, hji⟩ := hfull i (List.mem_range.mp hi)
      rw [map_fst_range_pair]
      exact List.mem_map.mpr ⟨j, List.mem_range.mpr hj, hji⟩
    have hcount : k ≤ ((List.range shards.length).map
        (fun i => (shards.chunk_index_at i, shards.chunk_at i))).length := by
      rw [List.length_map, List.length_range]
      have hsub : Finset.range k ⊆
          ((List.range shards.length).map shards.chunk_index_at).toFinset := by
        intro i hi
        obtain ⟨j, hj, hji⟩ := hfull i (Finset.mem_range.mp hi)
        exact List.mem_toFinset.mpr (List.mem_map.mpr ⟨j, List.mem_range.mpr hj, hji⟩)
      calc k = (Finset.range k).card := (Finset.card_range k).symm
        _ ≤ ((List.range shards.length).map shards.chunk_index_at).toFinset.card :=
            Finset.card_le_card hsub
        _ ≤ ((List.range shards.length).map shards.chunk_index_at).length :=
            List.toFinset_card_le _
        _ = shards.length := by rw [List.length_map, List.length_range]
    rw [coreDecode, if_neg (by omega),
      if_neg (by
        intro hcon
        obtain ⟨p, hp, hcp⟩ := hcon
        exact absurd (hmem p hp).1 (by omega)),
      if_neg (by
        intro hcon
        obtain ⟨p, hp, hcp⟩ := hcon
        exact hcp (hmem p hp).2),
      if_neg (by
        rw [not_not, map_fst_range_pair]
        exact hnodup),
      if_neg (by omega),
      if_pos hfull']
  rw [rs_decode, hcore]
  rfl

theorem rs_decode_full_original_noop_witness :
    rs_decode 1 1 1 ⟨1, 1, [GF256.ofNat 7], none⟩ =
      Except.ok ⟨0, 1, [], some []⟩ :=
  rs_decode_full_original_noop 1 1 1 ⟨1, 1, [GF256.ofNat 7], none⟩
    (by omega) (by omega)
    (by intro i hi; interval_cases i; decide)
    (by intro i hi; interval_cases i; decide)
    (by decide)
    (by
      intro i hi
      refine ⟨0, by decide, ?_⟩
      show (0 : Nat) = i
      omega)

/-- C3 (counterexample): a successful encode whose output's
`chunk_index_at 0` reports `0`, not the claimed global index `k = 2`;
encode packs its result with `indices: None`, so `chunk_index_at` falls
back to the position. -/
theorem rs_encode_output_index_counterexample :
    rs_encode 1 1 ⟨2, 1, [GF256.ofNat 3, GF256.ofNat 5], none⟩ =
      Except.ok ⟨1, 1, [GF256.ofNat 140], none⟩ ∧
    (⟨1, 1, [GF256.ofNat 140], none⟩ : RsShardsCollection).chunk_index_at 0 = 0 ∧
    ¬ (⟨1, 1, [GF256.ofNat 140], none⟩ : RsShardsCollection).chunk_index_at 0 = 2 :=
  ⟨rfl, rfl, by decide⟩

/-- C3 (amended): a successful encode with recovery count `m` returns
exactly `m` shards, carries no explicit index array, and therefore reports
position `i` (truncated to `u16`) from `chunk_index_at` — the global
indices `k..k+m-1` are only implicit (position + `k`).  Encoding reads the
originals and never alters them (the embedding is a pure function of the
input collection). -/
theorem rs_encode_output_shape (m L : Nat) (shards out : RsShardsCollection)
    (h : rs_encode m L shards = Except.ok out) :
    out.length = m ∧ out.shard_len = shards.shard_len ∧ out.indices = none ∧
    ∀ i, out.chunk_index_at i = i % 65536 := by
  rw [rs_encode] at h
  split at h
  · cases h
  · cases h
    exact ⟨rfl, rfl, rfl, fun i => rfl⟩

theorem rs_encode_output_shape_witness :
    (⟨1, 1, [GF256.ofNat 140], none⟩ : RsShardsCollection).length = 1 ∧
    (⟨1, 1, [GF256.ofNat 140], none⟩ : RsShardsCollection).shard_len = 1 ∧
    (⟨1, 1, [GF256.ofNat 140], none⟩ : RsShardsCollection).indices = none ∧
    ∀ i, (⟨1, 1, [GF256.ofNat 140], none⟩ : RsShardsCollection).chunk_index_at i =
      i % 65536 :=
  rs_encode_output_shape 1 1 ⟨2, 1, [GF256.ofNat 3, GF256.ofNat 5], none⟩ _ rfl

/-- C8 (counterexample): the source's `encode` has no separate
`original_count` parameter — `rs_encode` uses the collection's own count as
`k` — so a collection whose count (3) differs from a declared original
count (2) is not rejected: encoding succeeds. -/
theorem rs_encode_count_mismatch_counterexample :
    rs_encode 1 1 ⟨3, 1, [GF256.ofNat 1, GF256.ofNat 2, GF256.ofNat 3], none⟩ =
      Except.ok ⟨1, 1, [GF256.ofNat 246], none⟩ ∧
    (⟨3, 1, [GF256.ofNat 1, GF256.ofNat 2, GF256.ofNat 3], none⟩ :
      RsShardsCollection).length ≠ 2 :=
  ⟨rfl, by decide⟩

/-- C8 (amended): `rs_encode` derives the original count from the supplied
collection itself, so `ShardCountMismatch` is unreachable from it; and a
well-formed nonempty collection whose `shard_len` differs from the declared
`shard_bytes` is rejected with the shard-length error. -/
theorem rs_encode_mismatch_amended :
    (∀ m L : Nat, ∀ shards : RsShardsCollection,
      rs_encode m L shards ≠ Except.error RsError.ShardCountMismatch) ∧
    (∀ m L : Nat, ∀ shards : RsShardsCollection,
      0 < shards.length → shards.length + m ≤ 256 →
      shards.data.length = shards.length * shards.shard_len →
      shards.shard_len ≠ L →
      rs_encode m L shards = Except.error RsError.ShardLengthMismatch) := by
  constructor
  · intro m L shards hcon
    rw [rs_encode] at hcon
    split at hcon
    · rename_i e heq
      cases hcon
      rw [coreEncode] at heq
      split at heq
      · cases heq
      split at heq
      · rename_i hcnt
        rw [List.length_map, List.length_range] at hcnt
        exact hcnt rfl
      split at heq
      · cases heq
      · cases heq
    · cases hcon
  · intro m L shards hpos hkm hdata hlen
    have hchunk : (shards.chunk_at 0).length = shards.shard_len := by
      rw [RsShardsCollection.chunk_at, List.length_take, List.length_drop]
      have : shards.shard_len ≤ shards.data.length := by
        rw [hdata]
        calc shards.shard_len = 1 * shards.shard_len := (Nat.one_mul _).symm
          _ ≤ shards.length * shards.shard_len :=
              Nat.mul_le_mul_right _ hpos
      omega
    rw [rs_encode, coreEncode, if_neg (by omega),
      if_neg (by rw [List.length_map, List.length_range]; exact fun hc => hc rfl),
      if_pos ⟨shards.chunk_at 0,
        List.mem_map.mpr ⟨0, List.mem_range.mpr hpos, rfl⟩,
        by rw [hchunk]; exact hlen⟩]

theorem rs_encode_mismatch_amended_witness :
    rs_encode 1 7 ⟨2, 1, [GF256.ofNat 3, GF256.ofNat 5], none⟩ =
      Except.error RsError.ShardLengthMismatch ∧
    rs_encode 1 1 ⟨2, 1, [GF256.ofNat 3, GF256.ofNat 5], none⟩ ≠
      Except.error RsError.ShardCountMismatch :=
  ⟨rs_encode_mismatch_amended.2 1 7 ⟨2, 1, [GF256.ofNat 3, GF256.ofNat 5], none⟩
      (by decide) (by decide) (by decide) (by decide),
   rs_encode_mismatch_amended.1 1 1 ⟨2, 1, [GF256.ofNat 3, GF256.ofNat 5], none⟩⟩

/-- C2 (the decode length bug): `rs_decode` stores `data.len()` — the total
number of restored bytes — in the output's `length` field, so with
`shard_bytes = 2` and one restored shard the output reports a count of 2
shards while carrying a single index; this violates the constructor's own
`indices.length == length` invariant and the `data length = shard_len *
count` shape. -/
theorem rs_decode_length_is_byte_count :
    rs_decode 1 1 2 ⟨1, 2, [GF256.ofNat 1, GF256.ofNat 2], some [1]⟩ =
      Except.ok ⟨2, 2, [GF256.ofNat 1, GF256.ofNat 2], some [0]⟩ ∧
    (⟨2, 2, [GF256.ofNat 1, GF256.ofNat 2], some [0]⟩ :
      RsShardsCollection).length = 2 ∧
    ((⟨2, 2, [GF256.ofNat 1, GF256.ofNat 2], some [0]⟩ :
      RsShardsCollection).indices.getD []).length = 1 ∧
    (2 : Nat) ≠ 1 :=
  ⟨rfl, rfl, rfl, by omega⟩

/-! ## Round-trip infrastructure: sums and chunks -/

theorem foldr_add_init (f : Nat → GF256) (x : GF256) (l : List Nat) :
    l.foldr (fun i acc => f i + acc) x = l.foldr (fun i acc => f i + acc) 0 + x := by
  induction l with
  | nil => exact (zero_add x).symm
  | cons a t ih => rw [List.foldr_cons, List.foldr_cons, ih, add_assoc]

theorem gfSumRange_eq_sum (n : Nat) (f : Nat → GF256) :
    gfSumRange n f = ∑ i ∈ Finset.range n, f i := by
  induction n with
  | zero => rfl
  | succ n ih =>
    rw [gfSumRange, List.range_succ, List.foldr_append, foldr_add_init]
    rw [show (List.range n).foldr (fun i acc => f i + acc) 0 = gfSumRange n f from rfl]
    rw [ih, Finset.sum_range_succ]
    rw [show ([n].foldr (fun i acc => f i + acc) 0) = f n + 0 from rfl, add_zero]

theorem gfSumRange_eq_sum_fin (n : Nat) (f : Nat → GF256) :
    gfSumRange n f = ∑ i : Fin n, f i.val := by
  rw [gfSumRange_eq_sum, Fin.sum_univ_eq_sum_range]

theorem getD_map_range {α : Type} {j m : Nat} (f : Nat → α) (d : α) (hj : j < m) :
    ((List.range m).map f).getD j d = f j := by
  rw [List.getD_eq_getElem?_getD, List.getElem?_map, List.getElem?_range hj]
  rfl

theorem range_map_getD {α : Type} (l : List α) (d : α) :
    (List.range l.length).map (fun i => l.getD i d) = l := by
  apply List.ext_getElem
  · rw [List.length_map, List.length_range]
  · intro i h1 h2
    rw [List.getElem_map, List.getElem_range, List.getD_eq_getElem _ _ h2]

theorem flatten_chunk {L : Nat} (rows : List (List GF256))
    (h : ∀ s ∈ rows, s.length = L) :
    ∀ {i : Nat}, i < rows.length →
      (rows.flatten.drop (i * L)).take L = rows.getD i [] := by
  induction rows with
  | nil => intro i hi; simp at hi
  | cons r t ih =>
    intro i hi
    have hr : r.length = L := h r (List.mem_cons_self r t)
    cases i with
    | zero =>
      rw [List.flatten_cons, Nat.zero_mul, List.drop_zero,
        List.take_append_of_le_length (by omega), List.getD_cons_zero, ← hr,
        List.take_length]
    | succ i =>
      rw [List.flatten_cons, List.getD_cons_succ]
      have hstep : (i + 1) * L = r.length + i * L := by rw [hr]; ring
      rw [hstep, List.drop_append]
      exact ih (fun s hs => h s (List.mem_cons_of_mem r hs)) (by simpa using hi)

theorem encShards_length {k m L : Nat} {orig : List (List GF256)} :
    (encShards k m L orig).length = m := by
  rw [encShards, List.length_map, List.length_range]

theorem encShards_mem_length {k m L : Nat} {orig : List (List GF256)} :
    ∀ s ∈ encShards k m L orig, s.length = L := by
  intro s hs
  obtain ⟨j, hj, rfl⟩ := List.mem_map.mp hs
  rw [List.length_map, List.length_range]

theorem fullShard_length {k m L : Nat} {orig : List (List GF256)}
    (horig : orig.length = k) (hL : ∀ s ∈ orig, s.length = L)
    {g : Nat} (hg : g < k + m) :
    (fullShard k m L orig g).length = L := by
  rw [fullShard]
  split
  · rename_i hgk
    rw [List.getD_eq_getElem _ _ (by omega)]
    exact hL _ (List.getElem_mem _)
  · rename_i hgk
    rw [encShards, getD_map_range _ _ (by omega), List.length_map, List.length_range]

theorem coreEncode_eq (k m L : Nat) (orig : List (List GF256)) (hk : 0 < k)
    (hkm : k + m ≤ 256) (horig : orig.length = k)
    (hL : ∀ s ∈ orig, s.length = L) :
    coreEncode k m L orig = Except.ok (encShards k m L orig) := by
  have h3 : ¬ ∃ s ∈ orig, s.length ≠ L := by
    intro hcon
    obtain ⟨s, hs, hsl⟩ := hcon
    exact hsl (hL s hs)
  rw [coreEncode, if_neg (by omega), if_neg (by omega), if_neg h3]
  rfl

/-- Every shard of the systematic codeword is the generator-matrix linear
combination of the originals, byte by byte. -/
theorem fullShard_getD (k m L : Nat) (orig : List (List GF256))
    (horig : orig.length = k) (hL : ∀ s ∈ orig, s.length = L)
    {g : Nat} (hg : g < k + m) (b : Nat) :
    (fullShard k m L orig g).getD b 0 =
      ∑ i : Fin k, genEntry k g i.val * (orig.getD i.val []).getD b 0 := by
  have hrowlen : ∀ i : Fin k, (orig.getD i.val []).length = L := by
    intro i
    rw [List.getD_eq_getElem _ _ (by omega)]
    exact hL _ (List.getElem_mem _)
  rw [fullShard]
  split
  · rename_i hgk
    rw [Finset.sum_congr rfl
      (fun i _ => by rw [genEntry, if_pos hgk])]
    rw [Finset.sum_eq_single ⟨g, hgk⟩]
    · rw [if_pos rfl, one_mul]
    · intro i _ hne
      rw [if_neg, zero_mul]
      intro hgi
      exact hne (Fin.ext hgi.symm)
    · intro habs
      exact absurd (Finset.mem_univ _) habs
  · rename_i hgk
    have hj : g - k < m := by omega
    have hkg : k + (g - k) = g := by omega
    rw [encShards, getD_map_range _ _ hj]
    by_cases hb : b < L
    · rw [getD_map_range _ _ hb, hkg, gfSumRange_eq_sum_fin]
    · rw [List.getD_eq_default _ _ (by rw [List.length_map, List.length_range]; omega)]
      symm
      apply Finset.sum_eq_zero
      intro i _
      rw [List.getD_eq_default _ _ (by rw [hrowlen i]; omega), mul_zero]

/-! ## Round-trip infrastructure: the selection -/

theorem insertByIdx_perm (p : Nat × List GF256) (l : List (Nat × List GF256)) :
    (insertByIdx p l).Perm (p :: l) := by
  induction l with
  | nil => exact List.Perm.refl _
  | cons q t ih =>
    rw [insertByIdx]
    split
    · exact List.Perm.refl _
    · exact (ih.cons q).trans (List.Perm.swap p q t)

theorem sortByIdx_perm (l : List (Nat × List GF256)) : (sortByIdx l).Perm l := by
  induction l with
  | nil => exact List.Perm.refl _
  | cons p t ih => exact (insertByIdx_perm p (sortByIdx t)).trans (ih.cons p)

theorem decodeSel_length {k : Nat} {present : List (Nat × List GF256)}
    (h : k ≤ present.length) : (decodeSel k present).length = k := by
  rw [decodeSel, List.length_take, (sortByIdx_perm present).length_eq]
  omega

theorem decodeSel_subset {k : Nat} {present : List (Nat × List GF256)} :
    ∀ p ∈ decodeSel k present, p ∈ present := by
  intro p hp
  exact (sortByIdx_perm present).mem_iff.mp (List.take_subset _ _ hp)

theorem decodeSel_map_fst_nodup {k : Nat} {present : List (Nat × List GF256)}
    (h : (present.map Prod.fst).Nodup) :
    ((decodeSel k present).map Prod.fst).Nodup := by
  rw [decodeSel, List.map_take]
  exact List.Nodup.sublist (List.take_sublist _ _)
    (((sortByIdx_perm present).map Prod.fst).nodup_iff.mpr h)

theorem decodeSel_getD_mem {k : Nat} {present : List (Nat × List GF256)}
    (hcount : k ≤ present.length) (r : Fin k) :
    (decodeSel k present).getD r.val (0, []) ∈ present := by
  have hlen := decodeSel_length hcount
  rw [List.getD_eq_getElem _ _ (by omega)]
  exact decodeSel_subset _ (List.getElem_mem _)

theorem decodeSel_idx_inj {k : Nat} {present : List (Nat × List GF256)}
    (hnodup : (present.map Prod.fst).Nodup) (hcount : k ≤ present.length)
    {r r' : Fin k}
    (h : ((decodeSel k present).getD r.val (0, [])).1 =
      ((decodeSel k present).getD r'.val (0, [])).1) : r = r' := by
  have hlen : (decodeSel k present).length = k := decodeSel_length hcount
  have hmap : ((decodeSel k present).map Prod.fst).Nodup :=
    decodeSel_map_fst_nodup hnodup
  have hr : r.val < (decodeSel k present).length := by omega
  have hr' : r'.val < (decodeSel k present).length := by omega
  have hmr : r.val < ((decodeSel k present).map Prod.fst).length := by
    rw [List.length_map]
    omega
  have hmr' : r'.val < ((decodeSel k present).map Prod.fst).length := by
    rw [List.length_map]
    omega
  have h2 : ((decodeSel k present).map Prod.fst)[r.val] =
      ((decodeSel k present).map Prod.fst)[r'.val] := by
    rw [List.getElem_map, List.getElem_map]
    rw [List.getD_eq_getElem _ _ hr, List.getD_eq_getElem _ _ hr'] at h
    exact h
  exact Fin.ext ((List.Nodup.getElem_inj_iff hmap).mp h2)

/-! ## Round-trip infrastructure: invertibility of Cauchy systems

The spec's MDS argument: the Cauchy construction "guarantees every square
submatrix is invertible".  We prove the kernel form over GF256 (a field of
characteristic 2, so `-x = x`): a vector annihilating all the columns of a
wide-enough Cauchy system is zero, by interpolation. -/

theorem cauchy_kernel {ι κ : Type} [Fintype ι] [Fintype κ] [DecidableEq ι]
    (a : ι → GF256) (b : κ → GF256) (ha : Function.Injective a)
    (hb : Function.Injective b) (hab : ∀ i j, a i + b j ≠ 0)
    (hcard : Fintype.card ι ≤ Fintype.card κ) (v : ι → GF256)
    (hv : ∀ j, (∑ i, v i * (a i + b j)⁻¹) = 0) :
    ∀ i, v i = 0 := by
  intro i0
  set P : Polynomial GF256 :=
    ∑ i ∈ Finset.univ, Polynomial.C (v i) *
      ∏ l ∈ Finset.univ.erase i, (Polynomial.X + Polynomial.C (a l)) with hP
  have heval : ∀ x : GF256, P.eval x =
      ∑ i ∈ Finset.univ, v i * ∏ l ∈ Finset.univ.erase i, (x + a l) := by
    intro x
    rw [hP, Polynomial.eval_finset_sum]
    refine Finset.sum_congr rfl (fun i _ => ?_)
    rw [Polynomial.eval_mul, Polynomial.eval_C, Polynomial.eval_prod]
    congr 1
    refine Finset.prod_congr rfl (fun l _ => ?_)
    rw [Polynomial.eval_add, Polynomial.eval_X, Polynomial.eval_C]
  have hroot : ∀ j : κ, P.eval (b j) = 0 := by
    intro j
    rw [heval]
    have hterm : ∀ i ∈ (Finset.univ : Finset ι),
        v i * ∏ l ∈ Finset.univ.erase i, (b j + a l) =
        (v i * (a i + b j)⁻¹) * ∏ l ∈ Finset.univ, (b j + a l) := by
      intro i _
      have hne : b j + a i ≠ 0 := by
        rw [add_comm]
        exact hab i j
      have hsplit : (b j + a i) * ∏ l ∈ Finset.univ.erase i, (b j + a l) =
          ∏ l ∈ Finset.univ, (b j + a l) :=
        Finset.mul_prod_erase Finset.univ (fun l => b j + a l) (Finset.mem_univ i)
      have h2 : ∏ l ∈ Finset.univ.erase i, (b j + a l) =
          (b j + a i)⁻¹ * ∏ l ∈ Finset.univ, (b j + a l) := by
        rw [← hsplit, ← mul_assoc, inv_mul_cancel₀ hne, one_mul]
      rw [h2, show b j + a i = a i + b j from add_comm _ _, mul_assoc]
    rw [Finset.sum_congr rfl hterm, ← Finset.sum_mul, hv j, zero_mul]
  have hcard1 : 1 ≤ Fintype.card ι := by
    have : Nonempty ι := ⟨i0⟩
    exact Fintype.card_pos
  have hdeg : P.natDegree < Fintype.card κ := by
    have hdeg1 : P.natDegree ≤ Fintype.card ι - 1 := by
      rw [hP]
      apply Polynomial.natDegree_sum_le_of_forall_le
      intro i _
      calc (Polynomial.C (v i) *
            ∏ l ∈ Finset.univ.erase i,
              (Polynomial.X + Polynomial.C (a l))).natDegree
          ≤ (∏ l ∈ Finset.univ.erase i,
              (Polynomial.X + Polynomial.C (a l))).natDegree :=
            Polynomial.natDegree_C_mul_le _ _
        _ ≤ ∑ l ∈ Finset.univ.erase i,
              (Polynomial.X + Polynomial.C (a l)).natDegree :=
            Polynomial.natDegree_prod_le _ _
        _ = ∑ l ∈ Finset.univ.erase i, 1 :=
            Finset.sum_congr rfl (fun l _ => Polynomial.natDegree_X_add_C _)
        _ = (Finset.univ.erase i).card := by
            rw [Finset.sum_const, smul_eq_mul, mul_one]
        _ = Fintype.card ι - 1 := by
            rw [Finset.card_erase_of_mem (Finset.mem_univ i), Finset.card_univ]
    omega
  have hP0 : P = 0 :=
    Polynomial.eq_zero_of_natDegree_lt_card_of_eval_eq_zero P hb hroot hdeg
  have hz : P.eval (a i0) = 0 := by
    rw [hP0]
    exact Polynomial.eval_zero
  rw [heval] at hz
  rw [Finset.sum_eq_single i0] at hz
  · have hprod : ∏ l ∈ Finset.univ.erase i0, (a i0 + a l) ≠ 0 := by
      rw [Finset.prod_ne_zero_iff]
      intro l hl hcon
      exact (Finset.mem_erase.mp hl).1 (ha (GF256.add_eq_zero_iff.mp hcon)).symm
    rcases mul_eq_zero.mp hz with h | h
    · exact h
    · exact absurd h hprod
  · intro i _ hne
    apply mul_eq_zero_of_right
    apply Finset.prod_eq_zero
      (Finset.mem_erase.mpr ⟨fun hc => hne hc.symm, Finset.mem_univ i0⟩)
    exact GF256.add_self (a i0)
  · intro habs
    exact absurd (Finset.mem_univ i0) habs

/-- Any `k` distinct rows of the systematic Cauchy generator matrix form an
invertible `k × k` matrix (the MDS property of the spec). -/
theorem genMatrix_submatrix_det_ne_zero (k m : Nat) (hkm : k + m ≤ 256)
    (sel : Fin k → Nat) (hinj : Function.Injective sel)
    (hrange : ∀ r, sel r < k + m) :
    (Matrix.of fun r c : Fin k => genEntry k (sel r) c.val).det ≠ 0 := by
  intro hdet
  obtain ⟨v, hv0, hvM⟩ := Matrix.exists_vecMul_eq_zero_iff.mpr hdet
  have hcol : ∀ c : Fin k, ∑ r : Fin k, v r * genEntry k (sel r) c.val = 0 := by
    intro c
    have h1 := congrFun hvM c
    simp only [Matrix.vecMul, Matrix.dotProduct, Matrix.of_apply, Pi.zero_apply] at h1
    exact h1
  have hsel256 : ∀ r : Fin k, sel r < 256 := fun r => by
    have := hrange r
    omega
  -- the split of rows into identity rows (sel r < k) and Cauchy rows
  have hsplit : ∀ c : Fin k,
      (∑ r ∈ Finset.univ.filter (fun r : Fin k => sel r < k),
        v r * genEntry k (sel r) c.val) +
      (∑ r ∈ Finset.univ.filter (fun r : Fin k => ¬ sel r < k),
        v r * genEntry k (sel r) c.val) = 0 := by
    intro c
    rw [Finset.sum_filter_add_sum_filter_not]
    exact hcol c
  -- the Cauchy data
  have hcauchy : ∀ r : Fin k, ¬ sel r < k → v r = 0 := by
    have hmain := @cauchy_kernel
      {r : Fin k // ¬ sel r < k} {c : Fin k // ¬ ∃ r, sel r = c.val} _ _ _
      (fun r => GF256.ofNat (sel r.val)) (fun c => GF256.ofNat c.val.val)
      (by
        intro i i' h
        have := GF256.ofNat_inj (hsel256 i.val) (hsel256 i'.val) h
        exact Subtype.ext (hinj this))
      (by
        intro c c' h
        have h1 := GF256.ofNat_inj (by omega) (by omega) h
        exact Subtype.ext (Fin.ext h1))
      (by
        intro i j hcon
        have h1 := GF256.ofNat_inj (hsel256 i.val) (by omega)
          (GF256.add_eq_zero_iff.mp hcon)
        have h2 : (j.val : Nat) < k := j.val.isLt
        have h3 : ¬ sel i.val < k := i.2
        omega)
      (by
        -- card {r // ¬ sel r < k} ≤ card {c // ¬ ∃ r, sel r = c}
        have hq : Fintype.card {r : Fin k // sel r < k} =
            Fintype.card {c : Fin k // ∃ r, sel r = c.val} := by
          apply Fintype.card_congr
          refine ⟨fun r => ⟨⟨sel r.val, r.2⟩, ⟨r.val, rfl⟩⟩,
            fun c => ⟨Classical.choose c.2, ?_⟩, ?_, ?_⟩
          · have hspec := Classical.choose_spec c.2
            rw [hspec]
            exact c.val.isLt
          · intro r
            apply Subtype.ext
            apply hinj
            exact Classical.choose_spec (⟨r.val, rfl⟩ :
              ∃ rr, sel rr = (⟨sel r.val, r.2⟩ : Fin k).val)
          · intro c
            apply Subtype.ext
            apply Fin.ext
            exact Classical.choose_spec c.2
        have h1 : Fintype.card {r : Fin k // ¬ sel r < k} =
            k - Fintype.card {r : Fin k // sel r < k} := by
          rw [Fintype.card_subtype_compl, Fintype.card_fin]
        have h2 : Fintype.card {c : Fin k // ¬ ∃ r, sel r = c.val} =
            k - Fintype.card {c : Fin k // ∃ r, sel r = c.val} := by
          rw [Fintype.card_subtype_compl, Fintype.card_fin]
        omega)
      (fun r => v r.val)
      (by
        intro j
        have h1 := hsplit j.val
        have hzero : (∑ r ∈ Finset.univ.filter (fun r : Fin k => sel r < k),
            v r * genEntry k (sel r) j.val.val) = 0 := by
          apply Finset.sum_eq_zero
          intro r hr
          have hp := (Finset.mem_filter.mp hr).2
          rw [genEntry, if_pos hp, if_neg, mul_zero]
          intro hc
          exact j.2 ⟨r, hc⟩
        rw [hzero, zero_add] at h1
        have hsub : (∑ r ∈ Finset.univ.filter (fun r : Fin k => ¬ sel r < k),
            v r * genEntry k (sel r) j.val.val) =
            ∑ i : {r : Fin k // ¬ sel r < k},
              v i.val * genEntry k (sel i.val) j.val.val :=
          Finset.sum_subtype _ (fun x => by simp) _
        rw [hsub] at h1
        show (∑ i : {r : Fin k // ¬ sel r < k},
          v i.val * (GF256.ofNat (sel i.val) + GF256.ofNat j.val.val)⁻¹) = 0
        rw [Finset.sum_congr rfl (fun i _ => by
          rw [genEntry, if_neg i.2] :
            ∀ i ∈ (Finset.univ : Finset {r : Fin k // ¬ sel r < k}),
              v i.val * genEntry k (sel i.val) j.val.val =
              v i.val * (GF256.ofNat (sel i.val) + GF256.ofNat j.val.val)⁻¹)] at h1
        exact h1)
    intro r hr
    exact hmain ⟨r, hr⟩
  -- identity rows
  have hident : ∀ r : Fin k, sel r < k → v r = 0 := by
    intro r hr
    have h1 := hsplit ⟨sel r, hr⟩
    have hzero2 : (∑ r' ∈ Finset.univ.filter (fun r' : Fin k => ¬ sel r' < k),
        v r' * genEntry k (sel r') (⟨sel r, hr⟩ : Fin k).val) = 0 := by
      apply Finset.sum_eq_zero
      intro r' hr'
      rw [hcauchy r' (Finset.mem_filter.mp hr').2, zero_mul]
    rw [hzero2, add_zero] at h1
    rw [Finset.sum_eq_single_of_mem r
      (Finset.mem_filter.mpr ⟨Finset.mem_univ r, hr⟩)] at h1
    · rw [genEntry, if_pos hr, if_pos rfl, mul_one] at h1
      exact h1
    · intro r' hr' hne
      have hp := (Finset.mem_filter.mp hr').2
      rw [genEntry, if_pos hp, if_neg, mul_zero]
      intro hc
      exact hne (hinj hc)
  apply hv0
  funext r
  rcases Nat.lt_or_ge (sel r) k with hr | hr
  · exact hident r hr
  · exact hcauchy r (by omega)

theorem filterMap_congr_mem {α β : Type} {l : List α} {f g : α → Option β}
    (h : ∀ a ∈ l, f a = g a) : l.filterMap f = l.filterMap g := by
  induction l with
  | nil => rfl
  | cons a t ih =>
    rw [List.filterMap_cons, List.filterMap_cons, h a (List.mem_cons_self a t),
      ih (fun x hx => h x (List.mem_cons_of_mem a hx))]

/-- Core round trip: on a valid present set — distinct in-range indices, at
least `k` of them, every shard equal to its codeword shard — the decoder
returns exactly the erased originals, in ascending index order. -/
theorem coreDecode_roundtrip (k m L : Nat) (orig : List (List GF256))
    (hk : 0 < k) (hkm : k + m ≤ 256) (horig : orig.length = k)
    (hL : ∀ s ∈ orig, s.length = L)
    (present : List (Nat × List GF256))
    (hnodup : (present.map Prod.fst).Nodup)
    (hcount : k ≤ present.length)
    (hvalid : ∀ p ∈ present, p.1 < k + m ∧ p.2 = fullShard k m L orig p.1) :
    coreDecode k m L present =
      Except.ok ((List.range k).filterMap (fun i =>
        if i ∈ present.map Prod.fst then none
        else some (i, orig.getD i []))) := by
  have hrowlen : ∀ i : Fin k, (orig.getD i.val []).length = L := by
    intro i
    rw [List.getD_eq_getElem _ _ (by omega)]
    exact hL _ (List.getElem_mem _)
  have g1 : ¬ (k = 0 ∨ 256 < k + m) := by omega
  have g2 : ¬ ∃ p ∈ present, k + m ≤ p.1 := by
    rintro ⟨p, hp, hcon⟩
    exact absurd (hvalid p hp).1 (by omega)
  have g3 : ¬ ∃ p ∈ present, p.2.length ≠ L := by
    rintro ⟨p, hp, hcon⟩
    apply hcon
    rw [(hvalid p hp).2]
    exact fullShard_length horig hL (hvalid p hp).1
  have g4 : ¬ ¬ (present.map Prod.fst).Nodup := not_not.mpr hnodup
  have g5 : ¬ present.length < k := by omega
  by_cases g6 : ∀ i ∈ List.range k, i ∈ present.map Prod.fst
  · rw [coreDecode, if_neg g1, if_neg g2, if_neg g3, if_neg g4, if_neg g5, if_pos g6]
    congr 1
    symm
    rw [List.filterMap_eq_nil_iff]
    intro i hi
    rw [if_pos (g6 i hi)]
  · have hselmem : ∀ r : Fin k, (decodeSel k present).getD r.val (0, []) ∈ present :=
      decodeSel_getD_mem hcount
    have hselrange : ∀ r : Fin k, ((decodeSel k present).getD r.val (0, [])).1 < k + m :=
      fun r => (hvalid _ (hselmem r)).1
    have hdet : (decodeMatrix k (decodeSel k present)).det ≠ 0 := by
      rw [decodeMatrix]
      exact genMatrix_submatrix_det_ne_zero k m hkm
        (fun r => ((decodeSel k present).getD r.val (0, [])).1)
        (fun r r' h => decodeSel_idx_inj hnodup hcount h)
        hselrange
    have hinv : decodeInv k (decodeSel k present) * decodeMatrix k (decodeSel k present) = 1 := by
      rw [decodeInv, Matrix.smul_mul, Matrix.adjugate_mul,
        smul_smul, inv_mul_cancel₀ hdet, one_smul]
    have hselval : ∀ (r : Fin k) (b : Nat),
        ((decodeSel k present).getD r.val (0, [])).2.getD b 0 =
        ∑ c : Fin k, decodeMatrix k (decodeSel k present) r c *
          (orig.getD c.val []).getD b 0 := by
      intro r b
      rw [(hvalid _ (hselmem r)).2,
        fullShard_getD k m L orig horig hL (hselrange r) b]
      rfl
    rw [coreDecode, if_neg g1, if_neg g2, if_neg g3, if_neg g4, if_neg g5, if_neg g6,
      if_neg hdet]
    congr 1
    apply filterMap_congr_mem
    intro i hi
    have hik : i < k := List.mem_range.mp hi
    by_cases hmem : i ∈ present.map Prod.fst
    · rw [if_pos hmem, if_pos hmem]
    · rw [if_neg hmem, if_neg hmem]
      congr 1
      congr 1
      apply List.ext_getElem
      · rw [List.length_map, List.length_range, hrowlen ⟨i, hik⟩]
      · intro b hb1 hb2
        rw [List.getElem_map, List.getElem_range]
        have hbL : b < L := by
          rw [List.length_map, List.length_range] at hb1
          exact hb1
        have hkey : gfSumRange k (fun r => decodeInvEntry k (decodeSel k present) i r *
            ((decodeSel k present).getD r (0, [])).2.getD b 0) =
            (orig.getD i []).getD b 0 := by
          rw [gfSumRange_eq_sum_fin]
          have hstep1 : ∀ r : Fin k,
              decodeInvEntry k (decodeSel k present) i r.val *
                ((decodeSel k present).getD r.val (0, [])).2.getD b 0 =
              decodeInv k (decodeSel k present) ⟨i, hik⟩ r *
                ∑ c : Fin k, decodeMatrix k (decodeSel k present) r c *
                  (orig.getD c.val []).getD b 0 := by
            intro r
            rw [hselval r b, decodeInvEntry, dif_pos hik, dif_pos r.isLt]
          rw [Finset.sum_congr rfl (fun r _ => hstep1 r)]
          have hstep2 : ∀ r : Fin k,
              decodeInv k (decodeSel k present) ⟨i, hik⟩ r *
                ∑ c : Fin k, decodeMatrix k (decodeSel k present) r c *
                  (orig.getD c.val []).getD b 0 =
              ∑ c : Fin k, decodeInv k (decodeSel k present) ⟨i, hik⟩ r *
                (decodeMatrix k (decodeSel k present) r c *
                  (orig.getD c.val []).getD b 0) :=
            fun r => Finset.mul_sum _ _ _
          rw [Finset.sum_congr rfl (fun r _ => hstep2 r), Finset.sum_comm]
          have hstep3 : ∀ c : Fin k,
              (∑ r : Fin k, decodeInv k (decodeSel k present) ⟨i, hik⟩ r *
                (decodeMatrix k (decodeSel k present) r c *
                  (orig.getD c.val []).getD b 0)) =
              (decodeInv k (decodeSel k present) *
                decodeMatrix k (decodeSel k present)) ⟨i, hik⟩ c *
                (orig.getD c.val []).getD b 0 := by
            intro c
            rw [Matrix.mul_apply, Finset.sum_mul]
            exact Finset.sum_congr rfl (fun r _ => by rw [mul_assoc])
          rw [Finset.sum_congr rfl (fun c _ => hstep3 c), hinv]
          have hstep4 : ∀ c : Fin k,
              (1 : Matrix (Fin k) (Fin k) GF256) ⟨i, hik⟩ c *
                (orig.getD c.val []).getD b 0 =
              if (⟨i, hik⟩ : Fin k) = c then (orig.getD c.val []).getD b 0 else 0 := by
            intro c
            rw [Matrix.one_apply, ite_mul, one_mul, zero_mul]
          rw [Finset.sum_congr rfl (fun c _ => hstep4 c), Finset.sum_ite_eq,
            if_pos (Finset.mem_univ _)]
        exact hkey.trans (List.getD_eq_getElem _ _ hb2)

/-- C1: round trip.  Split any block into `k` equal-length shards, encode
with recovery count `m` (`k ≥ 1`, `k + m ≤ 256` so that encoding
succeeds), pick any subset of at least `k` of the resulting `k + m`
codeword shards with distinct global indices, and decode: the result is
exactly the erased original shards, byte-for-byte, each tagged with its
original index (in ascending order).  The output's `length` field carries
`data.len()` as the source does; the recovered bytes and indices are the
erased originals. -/
theorem reed_solomon_roundtrip
    (k m L : Nat) (hk : 0 < k) (hkm : k + m ≤ 256)
    (orig : List (List GF256)) (horig : orig.length = k)
    (hL : ∀ s ∈ orig, s.length = L)
    (recColl : RsShardsCollection)
    (henc : rs_encode m L ⟨k, L, orig.flatten, none⟩ = Except.ok recColl)
    (P : RsShardsCollection) (idxs : List Nat)
    (hPidx : P.indices = some idxs) (hPlen : idxs.length = P.length)
    (hPsl : P.shard_len = L)
    (hnodup : idxs.Nodup) (hcount : k ≤ P.length)
    (hvalid : ∀ i, i < P.length → idxs.getD i 0 < k + m ∧
      P.chunk_at i = (if idxs.getD i 0 < k then orig.getD (idxs.getD i 0) []
        else recColl.chunk_at (idxs.getD i 0 - k))) :
    rs_decode k m L P = Except.ok
      ⟨((List.range k).filterMap (fun i =>
          if i ∈ idxs then none else some (orig.getD i []))).flatten.length,
       L,
       ((List.range k).filterMap (fun i =>
          if i ∈ idxs then none else some (orig.getD i []))).flatten,
       some ((List.range k).filterMap (fun i =>
          if i ∈ idxs then none else some i))⟩ := by
  -- Step 1: identify the encode result.
  have hchunks : (List.range (RsShardsCollection.length ⟨k, L, orig.flatten, none⟩)).map
      (RsShardsCollection.chunk_at ⟨k, L, orig.flatten, none⟩) = orig := by
    show (List.range k).map (RsShardsCollection.chunk_at ⟨k, L, orig.flatten, none⟩) = orig
    have h1 : ∀ i ∈ List.range k,
        RsShardsCollection.chunk_at ⟨k, L, orig.flatten, none⟩ i = orig.getD i [] := by
      intro i hi
      exact flatten_chunk orig hL (by rw [horig]; exact List.mem_range.mp hi)
    rw [List.map_congr_left h1]
    calc (List.range k).map (fun i => orig.getD i [])
        = (List.range orig.length).map (fun i => orig.getD i []) := by rw [horig]
      _ = orig := range_map_getD orig []
  rw [rs_encode] at henc
  rw [show (RsShardsCollection.length ⟨k, L, orig.flatten, none⟩) = k from rfl] at hchunks
  rw [show ((List.range (RsShardsCollection.length ⟨k, L, orig.flatten, none⟩)).map
      (RsShardsCollection.chunk_at ⟨k, L, orig.flatten, none⟩)) =
      ((List.range k).map (RsShardsCollection.chunk_at ⟨k, L, orig.flatten, none⟩))
      from rfl] at henc
  rw [hchunks] at henc
  rw [show RsShardsCollection.length ⟨k, L, orig.flatten, none⟩ = k from rfl] at henc
  rw [coreEncode_eq k m L orig hk hkm horig hL] at henc
  have hrec : recColl = ⟨m, RsShardsCollection.shard_len ⟨k, L, orig.flatten, none⟩,
      (encShards k m L orig).flatten, none⟩ := by
    cases henc
    rfl
  have hrecchunk : ∀ j, j < m →
      recColl.chunk_at j = (encShards k m L orig).getD j [] := by
    intro j hj
    rw [hrec]
    show ((encShards k m L orig).flatten.drop (j * L)).take L =
      (encShards k m L orig).getD j []
    exact flatten_chunk (encShards k m L orig) encShards_mem_length
      (by rw [encShards_length]; exact hj)
  -- Step 2: the present list handed to the decoder core.
  have hcia : ∀ i : Nat, P.chunk_index_at i = idxs.getD i 0 := by
    intro i
    rw [RsShardsCollection.chunk_index_at, hPidx]
  have hmapfst : ((List.range P.length).map
      (fun i => (P.chunk_index_at i, P.chunk_at i))).map Prod.fst = idxs := by
    rw [map_fst_range_pair]
    rw [List.map_congr_left (fun i _ => hcia i)]
    calc (List.range P.length).map (fun i => idxs.getD i 0)
        = (List.range idxs.length).map (fun i => idxs.getD i 0) := by rw [hPlen]
      _ = idxs := range_map_getD idxs 0
  have hcore := coreDecode_roundtrip k m L orig hk hkm horig hL
    ((List.range P.length).map (fun i => (P.chunk_index_at i, P.chunk_at i)))
    (by rw [hmapfst]; exact hnodup)
    (by rw [List.length_map, List.length_range]; exact hcount)
    (by
      intro p hp
      obtain ⟨i, hi, rfl⟩ := List.mem_map.mp hp
      have hiP : i < P.length := List.mem_range.mp hi
      obtain ⟨hidx, hchunk⟩ := hvalid i hiP
      refine ⟨by rw [hcia]; exact hidx, ?_⟩
      show P.chunk_at i = fullShard k m L orig (P.chunk_index_at i)
      rw [hcia, hchunk, fullShard]
      split
      · rfl
      · rename_i hge
        rw [hrecchunk _ (by omega)])
  -- Step 3: assemble the wrapper output.
  rw [rs_decode, hcore]
  have hfst : ((List.range k).filterMap (fun i =>
      if i ∈ ((List.range P.length).map
        (fun i => (P.chunk_index_at i, P.chunk_at i))).map Prod.fst then none
      else some (i, orig.getD i []))).map Prod.fst =
      (List.range k).filterMap (fun i => if i ∈ idxs then none else some i) := by
    rw [hmapfst, List.map_filterMap]
    apply filterMap_congr_mem
    intro i _
    by_cases hmem : i ∈ idxs
    · rw [if_pos hmem, if_pos hmem]
      rfl
    · rw [if_neg hmem, if_neg hmem]
      rfl
  have hsnd : ((List.range k).filterMap (fun i =>
      if i ∈ ((List.range P.length).map
        (fun i => (P.chunk_index_at i, P.chunk_at i))).map Prod.fst then none
      else some (i, orig.getD i []))).map Prod.snd =
      (List.range k).filterMap (fun i =>
        if i ∈ idxs then none else some (orig.getD i [])) := by
    rw [hmapfst, List.map_filterMap]
    apply filterMap_congr_mem
    intro i _
    by_cases hmem : i ∈ idxs
    · rw [if_pos hmem, if_pos hmem]
      rfl
    · rw [if_neg hmem, if_neg hmem]
      rfl
  split
  · rename_i e heq
    cases heq
  · rename_i restored heq
    injection heq with h
    subst h
    rw [hfst, hsnd, hPsl]

theorem reed_solomon_roundtrip_witness :
    rs_decode 1 1 1 ⟨1, 1, [GF256.ofNat 3], some [1]⟩ =
      Except.ok ⟨1, 1, [GF256.ofNat 3], some [0]⟩ := by
  have h := reed_solomon_roundtrip 1 1 1 (by omega) (by omega)
    [[GF256.ofNat 3]] rfl (by decide)
    ⟨1, 1, [GF256.ofNat 3], none⟩ rfl
    ⟨1, 1, [GF256.ofNat 3], some [1]⟩ [1] rfl rfl rfl (by decide) (by decide)
    (by
      intro i hi
      interval_cases i
      exact ⟨by decide, by decide⟩)
  exact h.trans rfl
